import Mathlib

/-!
Verification of the core logic of the `tauri-plugin-tracing` crate.

Shallow embedding conventions:
* Rust `&str` / `String` values are modelled as `List Char` (the byte indices
  used by `str::find` / `replace_range` coincide with character indices for
  the ASCII patterns involved, and UTF-8 byte order on file names coincides
  with code-point order).
* The byte buffers handled by the ANSI stripper are modelled as `List Nat`
  (one `Nat` per `u8`).
* Fallible lookups return `Option`.
* File-system state for the retention sweep is modelled as the list of file
  names present in the log directory.

Embedded source locations:
* `src/strip_ansi.rs` (`strip_ansi_and_write`, duplicated in `src/lib.rs`),
* `src/callstack.rs` (`CallStackLine::strip_localhost`, `CallStack::from`,
  `CallStack::location/path/file_name`, `fmap_location`, `FILTERED_LINES`),
* `src/commands.rs` (the `log` command's severity-to-projection dispatch),
* `src/layer.rs` (`LogLevel` with its `serde_repr` 1..5 encoding),
* `src/lib.rs` (`cleanup_old_logs` / `cleanup_logs_keeping`).
-/

namespace TracingPlugin

/-! ANSI stripper, from `strip_ansi_and_write` in `src/strip_ansi.rs`. -/

/-- ASCII digit test on a byte, modelling `u8::is_ascii_digit`. -/
def isAsciiDigit (c : Nat) : Bool := decide (48 ≤ c ∧ c ≤ 57)

mutual

/-- Main scan loop of `strip_ansi_and_write`: byte 27 (ESC) immediately
followed by byte 91 (`[`) enters the SGR skip; every other byte is copied
to the output. -/
def stripLoop : List Nat → List Nat
  | [] => []
  | 27 :: 91 :: rest => sgrThen rest
  | b :: rest => b :: stripLoop rest

/-- Inner skip loop of `strip_ansi_and_write`: consumes one byte per step;
byte 109 (`m`) ends the sequence, digits and byte 59 (`;`) continue the
skip, and any other byte ends the skip (that byte is consumed too), after
which the main loop resumes. -/
def sgrThen : List Nat → List Nat
  | [] => []
  | c :: rest =>
    if c = 109 then stripLoop rest
    else if isAsciiDigit c || c = 59 then sgrThen rest
    else stripLoop rest

end

/-- Pure content of `strip_ansi_and_write`: the bytes that reach the wrapped
writer. The `memchr` fast path returns the buffer unchanged when no ESC byte
is present; otherwise the prefix before the first ESC is copied verbatim and
the scan loop handles the rest. -/
def strip_ansi (buf : List Nat) : List Nat :=
  if 27 ∈ buf then
    buf.takeWhile (fun b => b ≠ 27) ++ stripLoop (buf.dropWhile (fun b => b ≠ 27))
  else buf

/-- Test for an occurrence of byte 27 immediately followed by byte 91
somewhere in a buffer (the pattern that triggers the SGR skip). -/
def hasEscBracket : List Nat → Bool
  | [] => false
  | b :: rest => (b == 27 && rest.head? == some 91) || hasEscBracket rest

/-! Call-stack parsing, from `src/callstack.rs`. -/

/-- First index at which `pat` occurs as a contiguous substring of `l`,
modelling `str::find` (which returns the byte index of the first match). -/
def findSub (pat : List Char) : List Char → Option Nat
  | [] => if pat = [] then some 0 else none
  | x :: xs =>
    if pat.isPrefixOf (x :: xs) then some 0
    else (findSub pat xs).map (· + 1)

/-- Substring test, modelling `str::contains` (a find that succeeds). -/
def containsSub (pat l : List Char) : Bool := (findSub pat l).isSome

/-- Search pattern of `CallStackLine::strip_localhost`. -/
def lhMarker : List Char := "localhost:".toList

/-- First entry of `FILTERED_LINES`: the vendored-dependency path marker. -/
def marker₁ : List Char := "node_modules".toList

/-- Second entry of `FILTERED_LINES`: the native/built-in-function marker. -/
def marker₂ : List Char := "forEach@[native code]".toList

/-- Model of `CallStackLine::strip_localhost`: find the first occurrence of
`"localhost:"`; if a `'/'` occurs at or after it, remove everything up to and
including that first `'/'` (via `replace_range`); otherwise leave the line
unchanged. -/
def strip_localhost (l : List Char) : List Char :=
  match findSub lhMarker l with
  | none => l
  | some start =>
    match findSub ['/'] (l.drop start) with
    | none => l
    | some slashPos => l.drop (start + slashPos + 1)

/-- Test from `fmap_location`: does the line contain one of the
`FILTERED_LINES` markers? -/
def isFilteredLine (line : List Char) : Bool :=
  containsSub marker₁ line || containsSub marker₂ line

/-- Model of `fmap_location`: drop marker-bearing lines, strip the localhost
prefix from the others. -/
def fmap_location (line : List Char) : Option (List Char) :=
  if isFilteredLine line then none else some (strip_localhost line)

/-- Model of `[String]::join` with a single-character separator. -/
def joinSep (c : Char) : List (List Char) → List Char
  | [] => []
  | [s] => s
  | s :: ss => s ++ c :: joinSep c ss

/-- Model of `str::split` with a single-character pattern: always yields at
least one (possibly empty) segment. -/
def splitOnChar (c : Char) : List Char → List (List Char)
  | [] => [[]]
  | x :: xs =>
    if x = c then [] :: splitOnChar c xs
    else
      match splitOnChar c xs with
      | [] => [[x]]
      | s :: ss => (x :: s) :: ss

/-- Model of `CallStack::from(Option<&str>)`: `unwrap_or("")`, then split on
newlines. A `CallStack` is the list of its lines. -/
def callStackFrom (v : Option (List Char)) : List (List Char) :=
  splitOnChar '\n' (v.getD [])

/-- Model of `CallStack::location`: filter/transform each line with
`fmap_location`, join the survivors with `'#'`. -/
def location (stack : List (List Char)) : List Char :=
  joinSep '#' (stack.filterMap fmap_location)

/-- Model of `CallStack::path`: last `'#'`-separated segment of `location`,
with the `"unknown"` fallback of the `None` branch. -/
def path (stack : List (List Char)) : List Char :=
  match (splitOnChar '#' (location stack)).getLast? with
  | some s => s
  | none => "unknown".toList

/-- Model of `CallStack::file_name`: last `'/'`-separated segment of
`location`, with the `"unknown"` fallback of the `None` branch. -/
def file_name (stack : List (List Char)) : List Char :=
  match (splitOnChar '/' (location stack)).getLast? with
  | some s => s
  | none => "unknown".toList

/-! Severity levels, from `LogLevel` in `src/layer.rs` (duplicated in
`src/lib.rs`), and the `log` command from `src/commands.rs`. -/

/-- The five severity levels. -/
inductive LogLevel
  | Trace
  | Debug
  | Info
  | Warn
  | Error
deriving DecidableEq

/-- Discriminant values of the `#[repr(u16)]` enum (`Trace = 1`, the rest
ascending), which is what `serde_repr`'s `Serialize_repr` emits. -/
def toSeverityCode : LogLevel → Nat
  | .Trace => 1
  | .Debug => 2
  | .Info => 3
  | .Warn => 4
  | .Error => 5

/-- Decoding of a numeric severity, as `serde_repr`'s `Deserialize_repr`
matches discriminants (any other value is a deserialization error). -/
def fromSeverityCode : Nat → Option LogLevel
  | 1 => some .Trace
  | 2 => some .Debug
  | 3 => some .Info
  | 4 => some .Warn
  | 5 => some .Error
  | _ => none

/-- Location string computed by the `log` command in `src/commands.rs`:
parse the optional raw call stack, then project it according to the
severity level. -/
def logCommandLocation (level : LogLevel) (call_stack : Option (List Char)) :
    List Char :=
  let stack := callStackFrom call_stack
  match level with
  | .Trace => location stack
  | .Debug => path stack
  | .Info => file_name stack
  | .Warn => path stack
  | .Error => location stack

/-! Retention sweep, from `cleanup_old_logs` / `cleanup_logs_keeping` in
`src/lib.rs`. -/

/-- Lexicographic comparison of file names by code point, modelling the
`Ord` instance used by `sort_by_key` on file names (byte order of UTF-8
strings equals code-point order). -/
def nameLe : List Char → List Char → Bool
  | [], _ => true
  | _ :: _, [] => false
  | x :: xs, y :: ys =>
    if x.toNat < y.toNat then true
    else if y.toNat < x.toNat then false
    else nameLe xs ys

/-- Propositional form of the descending comparison passed to the sort
(`Reverse(file_name)` keys sort the names in descending order). -/
def nameGe (a b : List Char) : Prop := nameLe b a = true

instance : DecidableRel nameGe :=
  fun a b => inferInstanceAs (Decidable (nameLe b a = true))

/-- Retention strategies, from the `RotationStrategy` enum. -/
inductive RotationStrategy
  | KeepAll
  | KeepOne
  | KeepSome (n : Nat)

/-- File filter of `cleanup_logs_keeping`: name starts with `{prefix}.` and
ends with `.log`. -/
def matchesLog (pfx name : List Char) : Bool :=
  (pfx ++ ['.']).isPrefixOf name && (".log".toList).isSuffixOf name

/-- Files removed by `cleanup_logs_keeping`: the matching files, sorted
descending by name, minus the first `keep` of them. -/
def sweepDeleted (files : List (List Char)) (pfx : List Char) (keep : Nat) :
    List (List Char) :=
  (List.insertionSort nameGe (files.filter (matchesLog pfx))).drop keep

/-- Directory contents after `cleanup_logs_keeping`: everything except the
deleted files. -/
def survivorsKeeping (files : List (List Char)) (pfx : List Char)
    (keep : Nat) : List (List Char) :=
  files.filter (fun f => !(sweepDeleted files pfx keep).contains f)

/-- Directory contents after `cleanup_old_logs`: `KeepAll` deletes nothing,
`KeepOne` keeps one file, `KeepSome n` keeps `n`. -/
def cleanup_old_logs (files : List (List Char)) (pfx : List Char) :
    RotationStrategy → List (List Char)
  | .KeepAll => files
  | .KeepOne => survivorsKeeping files pfx 1
  | .KeepSome n => survivorsKeeping files pfx n

/-! Helper lemmas for the ANSI stripper. -/

/-- Scan-loop step on a head that does not open an SGR sequence: the byte is
copied and the loop continues. -/
theorem stripLoop_cons_no_sgr (b : Nat) (rest : List Nat)
    (h : b ≠ 27 ∨ rest.head? ≠ some 91) :
    stripLoop (b :: rest) = b :: stripLoop rest := by
  rw [stripLoop.eq_def]
  split
  · simp_all
  · simp_all
  · rename_i x heq
    injection heq with hb hr
    subst hb
    subst hr
    rfl

/-- Buffers with no ESC-`[` pair are fixed points of the scan loop. -/
theorem stripLoop_of_no_escBracket :
    ∀ l : List Nat, hasEscBracket l = false → stripLoop l = l := by
  intro l
  induction l with
  | nil => intro _; rfl
  | cons b rest ih =>
    intro h
    simp only [hasEscBracket, Bool.or_eq_false_iff, Bool.and_eq_false_iff,
      beq_iff_eq, beq_eq_false_iff_ne] at h
    obtain ⟨h1, h2⟩ := h
    rw [stripLoop_cons_no_sgr b rest (by tauto), ih h2]

/-- Absence of an ESC-`[` pair is inherited by any suffix. -/
theorem hasEscBracket_append_right (a s : List Nat)
    (h : hasEscBracket (a ++ s) = false) : hasEscBracket s = false := by
  induction a with
  | nil => exact h
  | cons x a ih =>
    simp only [List.cons_append, hasEscBracket, Bool.or_eq_false_iff] at h
    exact ih h.2

/-- Buffers with no ESC-`[` pair are fixed points of `strip_ansi`. -/
theorem strip_ansi_of_no_escBracket (l : List Nat)
    (h : hasEscBracket l = false) : strip_ansi l = l := by
  unfold strip_ansi
  split
  · have hsplit := List.takeWhile_append_dropWhile (p := fun b => b ≠ 27) (l := l)
    have h2 : hasEscBracket (l.dropWhile (fun b => b ≠ 27)) = false := by
      refine hasEscBracket_append_right (l.takeWhile (fun b => b ≠ 27)) _ ?_
      rw [hsplit]
      exact h
    rw [stripLoop_of_no_escBracket _ h2, hsplit]
  · rfl

/-! Claim C1. -/

/-- C1: the location string emitted by the `log` command is exactly
`location()` for Trace and Error, `path()` for Debug and Warn, and
`file_name()` for Info, applied to the `CallStack` parsed from the raw
call-stack argument. -/
theorem c1_severity_projection_mapping (s : Option (List Char)) :
    logCommandLocation .Trace s = location (callStackFrom s) ∧
    logCommandLocation .Error s = location (callStackFrom s) ∧
    logCommandLocation .Debug s = path (callStackFrom s) ∧
    logCommandLocation .Warn s = path (callStackFrom s) ∧
    logCommandLocation .Info s = file_name (callStackFrom s) :=
  ⟨rfl, rfl, rfl, rfl, rfl⟩

/-! Claim C2. -/

/-- C2: a `CallStack` built from an absent input or from the empty string
has empty `location()`, `path()` and `file_name()`, and none of the three
projections is the `"unknown"` sentinel. -/
theorem c2_absent_stack_projections_empty :
    location (callStackFrom none) = [] ∧
    path (callStackFrom none) = [] ∧
    file_name (callStackFrom none) = [] ∧
    location (callStackFrom (some [])) = [] ∧
    path (callStackFrom (some [])) = [] ∧
    file_name (callStackFrom (some [])) = [] ∧
    path (callStackFrom none) ≠ "unknown".toList ∧
    file_name (callStackFrom none) ≠ "unknown".toList ∧
    path (callStackFrom (some [])) ≠ "unknown".toList ∧
    file_name (callStackFrom (some [])) ≠ "unknown".toList := by
  decide

/-! Claim C9. -/

/-- C9: the severity levels encode to 1..5 ascending (Trace=1, Debug=2,
Info=3, Warn=4, Error=5) and decoding the encoding of any level yields that
level back. -/
theorem c9_severity_code_roundtrip :
    (toSeverityCode .Trace = 1 ∧ toSeverityCode .Debug = 2 ∧
     toSeverityCode .Info = 3 ∧ toSeverityCode .Warn = 4 ∧
     toSeverityCode .Error = 5) ∧
    ∀ l : LogLevel, fromSeverityCode (toSeverityCode l) = some l := by
  refine ⟨⟨rfl, rfl, rfl, rfl, rfl⟩, ?_⟩
  intro l
  cases l <;> rfl

/-! Claim C5. -/

/-- C5 counterexample: ANSI stripping is not idempotent. For the buffer
`ESC ESC [ m [` the first strip yields `ESC [` and stripping that again
yields the empty buffer. -/
theorem c5_counterexample_not_idempotent :
    strip_ansi (strip_ansi [27, 27, 91, 109, 91]) ≠
      strip_ansi [27, 27, 91, 109, 91] := by
  decide

/-- C5 (amended): ANSI stripping is idempotent on every buffer whose
stripped output contains no ESC byte immediately followed by `[`; on such
output a second strip is a no-op. -/
theorem c5_strip_ansi_idempotent_amended (b : List Nat)
    (h : hasEscBracket (strip_ansi b) = false) :
    strip_ansi (strip_ansi b) = strip_ansi b :=
  strip_ansi_of_no_escBracket _ h

/-- C5 amended-claim witness at the buffer `ESC [ 3 m X`, whose stripped
output `X` is free of ESC-`[`. -/
theorem c5_witness :
    hasEscBracket (strip_ansi [27, 91, 51, 109, 88]) = false ∧
    strip_ansi (strip_ansi [27, 91, 51, 109, 88]) =
      strip_ansi [27, 91, 51, 109, 88] :=
  ⟨by decide, c5_strip_ansi_idempotent_amended _ (by decide)⟩

/-! Claim C6. -/

/-- C6 counterexample: in the buffer `ESC [ X a` the SGR skip terminates at
the byte `X` (88), which is neither a digit, a semicolon nor `m`. The claim
says that byte is preserved in the output; the code consumes it, leaving
only `a` (97). -/
theorem c6_counterexample_terminator_consumed :
    strip_ansi [27, 91, 88, 97] = [97] ∧
    ¬ (88 ∈ strip_ansi [27, 91, 88, 97]) := by
  decide

/-- C6 (amended): after ESC-`[` the scan skips digits and semicolons; the
byte at which the skip terminates is consumed together with the sequence
in every case — when it is `m` the sequence is fully consumed, and when it
is any other byte that byte is consumed as well — and scanning resumes at
the byte after it. -/
theorem c6_sgr_skip_consumes_terminator (ds : List Nat) (c : Nat)
    (rest : List Nat) (hds : ∀ d ∈ ds, isAsciiDigit d = true ∨ d = 59)
    (hc : isAsciiDigit c = false) (hc2 : c ≠ 59) :
    sgrThen (ds ++ c :: rest) = stripLoop rest ∧
    stripLoop (27 :: 91 :: (ds ++ c :: rest)) = stripLoop rest := by
  have main : sgrThen (ds ++ c :: rest) = stripLoop rest := by
    induction ds with
    | nil =>
      by_cases h109 : c = 109
      · simp [sgrThen, h109]
      · simp [sgrThen, hc, hc2, h109]
    | cons d ds ih =>
      have hd := hds d (by simp)
      have hd109 : d ≠ 109 := by
        intro hEq
        subst hEq
        rcases hd with hd | hd
        · simp [isAsciiDigit] at hd
        · simp at hd
      have ih' := ih (fun x hx => hds x (by simp [hx]))
      rcases hd with hd | hd
      · simp [sgrThen, hd109, hd, ih']
      · simp [sgrThen, hd109, hd, ih']
  exact ⟨main, by simpa [stripLoop] using main⟩

/-- C6 amended-claim witness: skipping `3` then terminating at the
non-matching byte `q` (113) consumes `q` and resumes at the following
byte. -/
theorem c6_witness :
    (∀ d ∈ [51], isAsciiDigit d = true ∨ d = 59) ∧
    isAsciiDigit 113 = false ∧ (113 : Nat) ≠ 59 ∧
    stripLoop (27 :: 91 :: ([51] ++ 113 :: [97])) = stripLoop [97] := by
  refine ⟨by decide, by decide, by decide, ?_⟩
  exact (c6_sgr_skip_consumes_terminator [51] 113 [97] (by decide) (by decide)
    (by decide)).2

/-! Claim C8. -/

/-- C8: for the concrete two-frame stack the `path()` projection is the
exact last line and the `file_name()` projection is the last
`/`-separated segment. -/
theorem c8_concrete_two_frame_stack :
    path (callStackFrom (some
      ("Error\n    at foo (src/app.ts:10:5)\n    at bar (src/lib.ts:20:3)".toList))) =
      "    at bar (src/lib.ts:20:3)".toList ∧
    file_name (callStackFrom (some
      ("Error\n    at foo (src/app.ts:10:5)\n    at bar (src/lib.ts:20:3)".toList))) =
      "lib.ts:20:3)".toList := by
  decide

/-! Claim C10. -/

/-- Splitting on a character always yields at least one segment, as Rust's
`str::split` does. -/
theorem splitOnChar_ne_nil (c : Char) : ∀ l : List Char, splitOnChar c l ≠ [] := by
  intro l
  induction l with
  | nil => simp [splitOnChar]
  | cons x xs ih =>
    simp only [splitOnChar]
    split
    · simp
    · split
      · simp
      · simp

/-- C10: for every call stack, splitting `location()` on `#` or `/` yields
at least one segment, the last-segment lookup succeeds, and `path()` and
`file_name()` return that segment — the `"unknown"` fallback branches are
never taken. -/
theorem c10_unknown_fallback_unreachable (stack : List (List Char)) :
    ∃ a b, (splitOnChar '#' (location stack)).getLast? = some a ∧
      path stack = a ∧
      (splitOnChar '/' (location stack)).getLast? = some b ∧
      file_name stack = b := by
  have h1 := splitOnChar_ne_nil '#' (location stack)
  have h2 := splitOnChar_ne_nil '/' (location stack)
  obtain ⟨a, ha⟩ := Option.isSome_iff_exists.mp (List.getLast?_isSome.mpr h1)
  obtain ⟨b, hb⟩ := Option.isSome_iff_exists.mp (List.getLast?_isSome.mpr h2)
  refine ⟨a, b, ha, ?_, hb, ?_⟩
  · unfold path
    rw [ha]
  · unfold file_name
    rw [hb]

/-! Helper lemmas for substring search and the frame filter. -/

/-- Soundness of `findSub`: a returned index is an occurrence. -/
theorem findSub_sound (pat : List Char) :
    ∀ (l : List Char) (s : Nat), findSub pat l = some s → pat <+: l.drop s := by
  intro l
  induction l with
  | nil =>
    intro s h
    unfold findSub at h
    split at h
    · rename_i hp
      injection h with h'
      subst h'
      simp [hp]
    · exact absurd h (by simp)
  | cons x xs ih =>
    intro s h
    unfold findSub at h
    split at h
    · rename_i hp
      injection h with h'
      subst h'
      simpa using List.isPrefixOf_iff_prefix.mp hp
    · obtain ⟨s', hs', rfl⟩ := Option.map_eq_some'.mp h
      simpa using ih s' hs'

/-- Completeness of `findSub`: if the pattern occurs somewhere, the search
succeeds. -/
theorem findSub_complete (pat : List Char) :
    ∀ (l : List Char) (j : Nat), pat <+: l.drop j → (findSub pat l).isSome := by
  intro l
  induction l with
  | nil =>
    intro j h
    rw [List.drop_nil, List.prefix_nil] at h
    simp [findSub, h]
  | cons x xs ih =>
    intro j h
    unfold findSub
    split
    · simp
    · rename_i hnp
      cases j with
      | zero => exact absurd (List.isPrefixOf_iff_prefix.mpr (by simpa using h)) (by simpa using hnp)
      | succ j' =>
        have := ih j' (by simpa using h)
        simpa using this

/-- Substring containment agrees with `List.IsInfix`. -/
theorem containsSub_true_iff (pat l : List Char) :
    containsSub pat l = true ↔ pat <:+: l := by
  constructor
  · intro h
    obtain ⟨s, hs⟩ := Option.isSome_iff_exists.mp h
    exact ((findSub_sound pat l s hs).isInfix).trans (List.drop_suffix s l).isInfix
  · rintro ⟨u, v, rfl⟩
    have hp : pat <+: (u ++ pat ++ v).drop u.length := by
      rw [List.append_assoc, List.drop_left]
      exact ⟨v, rfl⟩
    exact findSub_complete pat _ u.length hp

/-- Localhost stripping only ever removes a prefix of the line. -/
theorem strip_localhost_suffix (l : List Char) : strip_localhost l <:+ l := by
  unfold strip_localhost
  split
  · exact List.suffix_refl l
  · split
    · exact List.suffix_refl l
    · exact List.drop_suffix _ l

/-- Line-by-line shape of the filtered stack: keep exactly the lines with no
marker, localhost-stripped. -/
theorem filterMap_fmap_location (stack : List (List Char)) :
    stack.filterMap fmap_location =
      (stack.filter (fun l => !isFilteredLine l)).map strip_localhost := by
  induction stack with
  | nil => rfl
  | cons l ls ih =>
    by_cases h : isFilteredLine l
    · simp [fmap_location, h, ih]
    · simp [fmap_location, h, ih]

/-- Occurrence of a `c`-free pattern in `s ++ c :: t` as a prefix lies in
`s`. -/
theorem prefix_of_append_cons {c : Char} :
    ∀ (m s t : List Char), c ∉ m → m <+: s ++ c :: t → m <+: s
  | [], _, _, _, _ => List.nil_prefix
  | x :: m, [], t, hc, h => by
    rw [List.nil_append, List.cons_prefix_cons] at h
    have : c ∈ x :: m := by
      rw [← h.1]
      exact List.mem_cons_self x m
    exact absurd this hc
  | x :: m, y :: s, t, hc, h => by
    rw [List.cons_append, List.cons_prefix_cons] at h
    refine List.cons_prefix_cons.mpr ⟨h.1, ?_⟩
    exact prefix_of_append_cons m s t (fun hm => hc (List.mem_cons_of_mem _ hm)) h.2

/-- Occurrence of a nonempty `c`-free pattern in `s ++ c :: t` lies wholly
in `s` or wholly in `t`. -/
theorem infix_of_append_cons {c : Char} :
    ∀ (m s t : List Char), m ≠ [] → c ∉ m → m <:+: s ++ c :: t →
      m <:+: s ∨ m <:+: t
  | m, [], t, hm, hc, h => by
    rw [List.nil_append, List.infix_cons_iff] at h
    rcases h with h | h
    · cases m with
      | nil => exact absurd rfl hm
      | cons x m' =>
        rw [List.cons_prefix_cons] at h
        have : c ∈ x :: m' := by
          rw [← h.1]
          exact List.mem_cons_self x m'
        exact absurd this hc
    · exact Or.inr h
  | m, y :: s, t, hm, hc, h => by
    rw [List.cons_append, List.infix_cons_iff] at h
    rcases h with h | h
    · exact Or.inl (prefix_of_append_cons m (y :: s) t hc (by rwa [List.cons_append])).isInfix
    · rcases infix_of_append_cons m s t hm hc h with h' | h'
      · exact Or.inl (List.infix_cons h')
      · exact Or.inr h'

/-- Occurrence of a nonempty separator-free pattern in a separator-join lies
wholly inside one of the joined segments. -/
theorem infix_joinSep {c : Char} {m : List Char} (hm : m ≠ []) (hc : c ∉ m) :
    ∀ L : List (List Char), m <:+: joinSep c L → ∃ s ∈ L, m <:+: s
  | [], h => by
    rw [joinSep, List.infix_nil] at h
    exact absurd h hm
  | [s], h => ⟨s, by simp, by simpa [joinSep] using h⟩
  | s :: s' :: L, h => by
    have h' : m <:+: s ++ c :: joinSep c (s' :: L) := by simpa [joinSep] using h
    rcases infix_of_append_cons m s (joinSep c (s' :: L)) hm hc h' with h2 | h2
    · exact ⟨s, by simp, h2⟩
    · obtain ⟨u, hu, hmu⟩ := infix_joinSep hm hc (s' :: L) h2
      exact ⟨u, List.mem_cons_of_mem _ hu, hmu⟩

/-- Markers never survive into `location`: any pattern that forces a line to
be filtered cannot occur in the join of the surviving lines. -/
theorem marker_not_infix_location (m : List Char) (hm : m ≠ [])
    (hc : '#' ∉ m)
    (hcon : ∀ l' : List Char, containsSub m l' = true → isFilteredLine l' = true)
    (stack : List (List Char)) : ¬ m <:+: location stack := by
  intro hinf
  obtain ⟨s, hs, hms⟩ := infix_joinSep hm hc (stack.filterMap fmap_location) hinf
  obtain ⟨l', _, hfl⟩ := List.mem_filterMap.mp hs
  by_cases hf : isFilteredLine l'
  · simp [fmap_location, hf] at hfl
  · have hsl : strip_localhost l' = s := by simpa [fmap_location, hf] using hfl
    have hml' : m <:+: l' := by
      refine List.IsInfix.trans ?_ (strip_localhost_suffix l').isInfix
      rw [hsl]
      exact hms
    exact hf (by rw [hcon l' ((containsSub_true_iff m l').mpr hml')])

/-! Claim C3. -/

/-- C3: every stack line containing a `FILTERED_LINES` marker is absent
from the string `location()` returns, and `location()` is exactly the
remaining lines, localhost-stripped, joined with `#` in their original
order. -/
theorem c3_filtered_lines_absent (stack : List (List Char)) :
    (∀ line ∈ stack, isFilteredLine line = true → ¬ line <:+: location stack) ∧
    location stack =
      joinSep '#' ((stack.filter (fun l => !isFilteredLine l)).map strip_localhost) := by
  constructor
  · intro line _ hmark hinf
    have hor : containsSub marker₁ line = true ∨ containsSub marker₂ line = true := by
      simpa [isFilteredLine, Bool.or_eq_true] using hmark
    rcases hor with hm | hm
    · have h1 : marker₁ <:+: line := (containsSub_true_iff _ _).mp hm
      refine marker_not_infix_location marker₁ (by decide) (by decide)
        (fun l' hc => ?_) stack (h1.trans hinf)
      simp [isFilteredLine, hc]
    · have h1 : marker₂ <:+: line := (containsSub_true_iff _ _).mp hm
      refine marker_not_infix_location marker₂ (by decide) (by decide)
        (fun l' hc => ?_) stack (h1.trans hinf)
      simp [isFilteredLine, hc]
  · unfold location
    rw [filterMap_fmap_location]

/-- C3 witness: a concrete `node_modules` frame is filtered and absent from
the location string of its stack. -/
theorem c3_witness :
    isFilteredLine ("at node_modules/lib/index.js:1:1".toList) = true ∧
    ¬ ("at node_modules/lib/index.js:1:1".toList <:+:
        location ["at node_modules/lib/index.js:1:1".toList,
                  "at src/app.ts:10:5".toList]) :=
  ⟨by decide,
    (c3_filtered_lines_absent
      ["at node_modules/lib/index.js:1:1".toList,
       "at src/app.ts:10:5".toList]).1 _ (by decide) (by decide)⟩

/-! Helper lemmas for claim C4. -/

/-- Characterization of `findSub` as first-occurrence search: an occurrence
at `s` with none before it is what the search returns. -/
theorem findSub_eq_some_of_first (pat : List Char) :
    ∀ (l : List Char) (s : Nat), pat <+: l.drop s →
      (∀ j < s, ¬ pat <+: l.drop j) → findSub pat l = some s := by
  intro l
  induction l with
  | nil =>
    intro s hs hmin
    rw [List.drop_nil, List.prefix_nil] at hs
    have hs0 : s = 0 := by
      by_contra hne
      exact hmin 0 (Nat.pos_of_ne_zero hne) (by simp [hs])
    subst hs0
    simp [findSub, hs]
  | cons x xs ih =>
    intro s hs hmin
    unfold findSub
    split
    · rename_i hp
      have hs0 : s = 0 := by
        by_contra hne
        exact hmin 0 (Nat.pos_of_ne_zero hne)
          (by simpa using List.isPrefixOf_iff_prefix.mp hp)
      simp [hs0]
    · rename_i hnp
      cases s with
      | zero =>
        exact absurd (List.isPrefixOf_iff_prefix.mpr (by simpa using hs))
          (by simpa using hnp)
      | succ s' =>
        have hmain : findSub pat xs = some s' := by
          refine ih s' (by simpa using hs) (fun j hj => ?_)
          have := hmin (j + 1) (by omega)
          simpa using this
        simp [hmain]

/-- Prefix test for a one-character pattern: it occurs at the head. -/
theorem singleton_prefix_iff (a : Char) (t : List Char) :
    [a] <+: t ↔ t.head? = some a := by
  cases t with
  | nil => simp
  | cons x xs =>
    rw [List.cons_prefix_cons]
    simp [eq_comm]

/-- One-character occurrence at an index, in terms of `getElem?`. -/
theorem singleton_prefix_drop_iff (a : Char) (l : List Char) (p : Nat) :
    [a] <+: l.drop p ↔ l[p]? = some a := by
  rw [singleton_prefix_iff, List.head?_eq_getElem?, List.getElem?_drop,
    Nat.add_zero]

/-! Claim C4. -/

/-- C4: a line whose first `"localhost:"` occurrence is at index `s` and
whose first `'/'` at or after `s` is at index `p` has exactly its prefix
through that first `'/'` removed (a single removal); a line with no
`"localhost:"` occurrence, or none followed by a `'/'`, is unchanged. -/
theorem c4_strip_localhost_first_url (l : List Char) :
    ((∀ i, ¬ lhMarker <+: l.drop i) → strip_localhost l = l) ∧
    (∀ s, lhMarker <+: l.drop s → (∀ j < s, ¬ lhMarker <+: l.drop j) →
      ((∀ p, s ≤ p → l[p]? ≠ some '/') → strip_localhost l = l) ∧
      (∀ p, s ≤ p → l[p]? = some '/' →
        (∀ j < p, s ≤ j → l[j]? ≠ some '/') →
        strip_localhost l = l.drop (p + 1))) := by
  constructor
  · intro hno
    unfold strip_localhost
    cases h : findSub lhMarker l with
    | none => rfl
    | some s => exact absurd (findSub_sound lhMarker l s h) (hno s)
  · intro s hs hmin
    have hfind : findSub lhMarker l = some s := findSub_eq_some_of_first lhMarker l s hs hmin
    constructor
    · intro hnoslash
      cases h : findSub ['/'] (l.drop s) with
      | none => simp [strip_localhost, hfind, h]
      | some q =>
        have hq : ['/'] <+: (l.drop s).drop q := findSub_sound _ _ q h
        rw [List.drop_drop, singleton_prefix_drop_iff] at hq
        exact absurd hq (hnoslash (s + q) (by omega))
    · intro p hsp hp hminp
      have hq : findSub ['/'] (l.drop s) = some (p - s) := by
        refine findSub_eq_some_of_first _ _ _ ?_ ?_
        · rw [List.drop_drop, singleton_prefix_drop_iff]
          have : s + (p - s) = p := by omega
          rw [this]
          exact hp
        · intro j hj hpre
          rw [List.drop_drop, singleton_prefix_drop_iff] at hpre
          exact hminp (s + j) (by omega) (by omega) hpre
      have harith : s + (p - s) + 1 = p + 1 := by omega
      simp [strip_localhost, hfind, hq, harith]

/-- C4 witness: in a concrete dev-server frame the prefix through the first
slash after the port is removed. -/
theorem c4_witness :
    lhMarker <+: ("http://localhost:1420/src/app.ts:10:5".toList).drop 7 ∧
    ("http://localhost:1420/src/app.ts:10:5".toList)[21]? = some '/' ∧
    strip_localhost ("http://localhost:1420/src/app.ts:10:5".toList) =
      ("http://localhost:1420/src/app.ts:10:5".toList).drop 22 :=
  ⟨by decide, by decide,
    ((c4_strip_localhost_first_url
        ("http://localhost:1420/src/app.ts:10:5".toList)).2 7 (by decide)
      (by decide)).2 21 (by decide) (by decide) (by decide)⟩

/-! Helper lemmas for the retention sweep. -/

/-- Head comparison extracted from a lexicographic comparison. -/
theorem nameLe_head_le {x y : Char} {xs ys : List Char}
    (h : nameLe (x :: xs) (y :: ys) = true) : x.toNat ≤ y.toNat := by
  by_cases h1 : x.toNat < y.toNat
  · omega
  · by_cases h2 : y.toNat < x.toNat
    · simp [nameLe, h1, h2] at h
    · omega

/-- Lexicographic comparison on equal heads reduces to the tails. -/
theorem nameLe_cons_eq {x y : Char} {xs ys : List Char}
    (h : x.toNat = y.toNat) : nameLe (x :: xs) (y :: ys) = nameLe xs ys := by
  simp [nameLe, h]

/-- Totality of the lexicographic comparison. -/
theorem nameLe_total : ∀ a b : List Char, nameLe a b = true ∨ nameLe b a = true
  | [], _ => Or.inl rfl
  | _ :: _, [] => Or.inr rfl
  | x :: xs, y :: ys => by
    rcases Nat.lt_trichotomy x.toNat y.toNat with h | h | h
    · left
      simp [nameLe, h]
    · rcases nameLe_total xs ys with hle | hle
      · left
        rw [nameLe_cons_eq h]
        exact hle
      · right
        rw [nameLe_cons_eq h.symm]
        exact hle
    · right
      simp [nameLe, h]

/-- Transitivity of the lexicographic comparison. -/
theorem nameLe_trans : ∀ a b c : List Char,
    nameLe a b = true → nameLe b c = true → nameLe a c = true
  | [], _, _, _, _ => rfl
  | _ :: _, [], _, h1, _ => by simp [nameLe] at h1
  | _ :: _, _ :: _, [], _, h2 => by simp [nameLe] at h2
  | x :: xs, y :: ys, z :: zs, h1, h2 => by
    have hxy := nameLe_head_le h1
    have hyz := nameLe_head_le h2
    rcases Nat.lt_trichotomy x.toNat z.toNat with hxz | hxz | hxz
    · simp [nameLe, hxz]
    · rw [nameLe_cons_eq (by omega)] at h1
      rw [nameLe_cons_eq (by omega)] at h2
      rw [nameLe_cons_eq hxz]
      exact nameLe_trans xs ys zs h1 h2
    · omega

instance : IsTotal (List Char) nameGe :=
  ⟨fun a b => nameLe_total b a⟩

instance : IsTrans (List Char) nameGe :=
  ⟨fun a b c h1 h2 => nameLe_trans c b a h2 h1⟩

/-- Exact description of the survivors of one `cleanup_logs_keeping` sweep
over a directory of matching, distinct file names: `keep` files survive,
all survivors were present, and every deleted file compares strictly below
every survivor. -/
theorem survivorsKeeping_spec (files : List (List Char)) (pfx : List Char)
    (k : Nat) (hnd : files.Nodup)
    (hall : ∀ f ∈ files, matchesLog pfx f = true) (hk : k ≤ files.length) :
    (survivorsKeeping files pfx k).length = k ∧
    (∀ x ∈ survivorsKeeping files pfx k, x ∈ files) ∧
    (∀ y ∈ files, y ∉ survivorsKeeping files pfx k →
      ∀ x ∈ survivorsKeeping files pfx k, nameLe y x = true ∧ y ≠ x) := by
  have hfilter : files.filter (matchesLog pfx) = files :=
    List.filter_eq_self.mpr hall
  have hdel : sweepDeleted files pfx k =
      (List.insertionSort nameGe files).drop k := by
    unfold sweepDeleted
    rw [hfilter]
  set sorted := List.insertionSort nameGe files with hsortedDef
  have hperm : List.Perm sorted files := List.perm_insertionSort nameGe files
  have hsortnd : sorted.Nodup := hperm.nodup_iff.mpr hnd
  have hsplitnd : (sorted.take k ++ sorted.drop k).Nodup := by
    rw [List.take_append_drop]
    exact hsortnd
  have hdisj : ∀ a ∈ sorted.take k, a ∉ sorted.drop k :=
    fun a ha hb => (List.nodup_append.mp hsplitnd).2.2 ha hb
  have hmem_surv : ∀ x, x ∈ survivorsKeeping files pfx k ↔
      (x ∈ files ∧ x ∉ sorted.drop k) := by
    intro x
    unfold survivorsKeeping
    rw [List.mem_filter, hdel]
    simp
  have hsurv_perm : List.Perm (survivorsKeeping files pfx k) (sorted.take k) := by
    have h1 : List.Perm (survivorsKeeping files pfx k)
        (sorted.filter (fun f => !(sweepDeleted files pfx k).contains f)) :=
      (hperm.symm).filter _
    have h2 : sorted.filter (fun f => !(sweepDeleted files pfx k).contains f) =
        sorted.take k := by
      conv_lhs => rw [← List.take_append_drop k sorted, List.filter_append]
      have h3 : (sorted.drop k).filter
          (fun f => !(sweepDeleted files pfx k).contains f) = [] := by
        rw [List.filter_eq_nil_iff]
        intro a ha
        rw [hdel]
        simp [ha]
      have h4 : (sorted.take k).filter
          (fun f => !(sweepDeleted files pfx k).contains f) = sorted.take k := by
        rw [List.filter_eq_self]
        intro a ha
        rw [hdel]
        simpa using hdisj a ha
      rw [h3, h4, List.append_nil]
    exact h1.trans (h2 ▸ List.Perm.refl _)
  have hsorted : List.Pairwise nameGe sorted :=
    List.sorted_insertionSort nameGe files
  have hpair : ∀ x ∈ sorted.take k, ∀ y ∈ sorted.drop k, nameGe x y := by
    have := hsorted
    rw [← List.take_append_drop k sorted, List.pairwise_append] at this
    exact this.2.2
  refine ⟨?_, ?_, ?_⟩
  · rw [hsurv_perm.length_eq, List.length_take]
    have : sorted.length = files.length := hperm.length_eq
    omega
  · intro x hx
    exact ((hmem_surv x).mp hx).1
  · intro y hy hyn x hx
    have hytk : y ∈ sorted.drop k := by
      by_contra hcon
      exact hyn ((hmem_surv y).mpr ⟨hy, hcon⟩)
    have hxtk : x ∈ sorted.take k := hsurv_perm.mem_iff.mp hx
    refine ⟨hpair x hxtk y hytk, ?_⟩
    intro hEq
    exact hdisj x hxtk (hEq ▸ hytk)

/-! Claim C7. -/

/-- C7: over a directory of distinct files all matching `{prefix}.*.log`, a
sweep with `KeepSome k` (for `k` below the file count) leaves exactly `k`
files, each a file of the directory, with every deleted file strictly below
every survivor in name order (so the survivors are exactly the `k`
lexicographically greatest names); `KeepOne` leaves exactly the one
greatest; `KeepAll` deletes nothing. -/
theorem c7_retention_sweep (files : List (List Char)) (pfx : List Char)
    (k : Nat) (hnd : files.Nodup)
    (hall : ∀ f ∈ files, matchesLog pfx f = true) :
    cleanup_old_logs files pfx .KeepAll = files ∧
    (k < files.length →
      (cleanup_old_logs files pfx (.KeepSome k)).length = k ∧
      (∀ x ∈ cleanup_old_logs files pfx (.KeepSome k), x ∈ files) ∧
      (∀ y ∈ files, y ∉ cleanup_old_logs files pfx (.KeepSome k) →
        ∀ x ∈ cleanup_old_logs files pfx (.KeepSome k),
          nameLe y x = true ∧ y ≠ x)) ∧
    (1 ≤ files.length →
      (cleanup_old_logs files pfx .KeepOne).length = 1 ∧
      (∀ x ∈ cleanup_old_logs files pfx .KeepOne, x ∈ files) ∧
      (∀ y ∈ files, y ∉ cleanup_old_logs files pfx .KeepOne →
        ∀ x ∈ cleanup_old_logs files pfx .KeepOne,
          nameLe y x = true ∧ y ≠ x)) := by
  refine ⟨rfl, ?_, ?_⟩
  · intro hkN
    exact survivorsKeeping_spec files pfx k hnd hall (by omega)
  · intro hN
    exact survivorsKeeping_spec files pfx 1 hnd hall hN

/-- C7 witness: three dated log files with `KeepSome 2` keep exactly two. -/
theorem c7_witness :
    ["app.1.log".toList, "app.3.log".toList, "app.2.log".toList].Nodup ∧
    (cleanup_old_logs
      ["app.1.log".toList, "app.3.log".toList, "app.2.log".toList]
      "app".toList (.KeepSome 2)).length = 2 :=
  ⟨by decide,
    ((c7_retention_sweep
        ["app.1.log".toList, "app.3.log".toList, "app.2.log".toList]
        "app".toList 2 (by decide) (by decide)).2.1 (by decide)).1⟩

end TracingPlugin
